import Mathlib

/-!
Verification of the PDF-to-audio pipeline in `simple.py`.

Strings are embedded as `List Char` (Python `str` is a sequence of code
points; `len` is the character count).  Python's `str.strip`, `str.split`
and the specific `re` patterns used by the source are embedded as
executable Lean functions over `List Char`.
-/

/-- Python whitespace characters, as recognised by `str.strip` and `\s`
(for the ASCII range that the source's regexes operate on). -/
def isPyWS (c : Char) : Bool :=
  c = ' ' || c = '\t' || c = '\n' || c = '\r' || c = '\x0b' || c = '\x0c'

/-- Python `str.strip()`: remove leading and trailing whitespace
(right side stripped first, then the left side; the order is immaterial
for the result and matches Python's semantics). -/
def pyStrip (s : List Char) : List Char :=
  ((s.reverse.dropWhile isPyWS).reverse).dropWhile isPyWS

/-- Prepend a character onto the first piece of a split result. -/
def consHead (c : Char) : List (List Char) → List (List Char)
  | [] => [[c]]
  | p :: ps => (c :: p) :: ps

/-- Python `text.split('\n\n')` (line 65): split on every occurrence of a
double newline, keeping empty pieces, leftmost non-overlapping scan. -/
def splitParas : List Char → List (List Char)
  | [] => [[]]
  | [c] => [[c]]
  | c :: d :: rest =>
    if c = '\n' ∧ d = '\n' then [] :: splitParas rest
    else consHead c (splitParas (d :: rest))

/-- Python `re.split(r'(?<=\. )', paragraph)` (line 74): cut after every
occurrence of a period followed by a space; the `". "` stays at the end of
the left piece.  Zero-width pattern, so no characters are removed. -/
def splitSentences : List Char → List (List Char)
  | [] => [[]]
  | [c] => [[c]]
  | c :: d :: rest =>
    if c = '.' ∧ d = ' ' then [c, d] :: splitSentences rest
    else consHead c (splitSentences (d :: rest))

/-- Python `sentence.split(' ')` (line 81): split on every single space
character, keeping empty pieces. -/
def splitSpaces : List Char → List (List Char)
  | [] => [[]]
  | c :: rest =>
    if c = ' ' then [] :: splitSpaces rest
    else consHead c (splitSpaces rest)

/-- The mutable state of `split_text_into_chunks`: the list of emitted
chunks (`chunks`, line 62) and the running buffer (`current_chunk`,
line 67). -/
structure SplitState where
  chunks : List (List Char)
  cur : List Char
deriving Repr, DecidableEq

/-- The word loop of `split_text_into_chunks` (lines 82-87). -/
def processWords (maxLength : Nat) : List (List Char) → SplitState → SplitState
  | [], st => st
  | w :: rest, st =>
    if st.cur.length + w.length + 1 > maxLength then
      processWords maxLength rest ⟨st.chunks ++ [pyStrip st.cur], w ++ [' ']⟩
    else
      processWords maxLength rest ⟨st.chunks, st.cur ++ w ++ [' ']⟩

/-- The sentence loop of `split_text_into_chunks` (lines 77-93). -/
def processSentences (maxLength : Nat) : List (List Char) → SplitState → SplitState
  | [], st => st
  | s :: rest, st =>
    if st.cur.length + s.length + 1 > maxLength then
      if s.length > maxLength then
        processSentences maxLength rest (processWords maxLength (splitSpaces s) st)
      else
        processSentences maxLength rest ⟨st.chunks ++ [pyStrip st.cur], s ++ [' ']⟩
    else
      processSentences maxLength rest ⟨st.chunks, st.cur ++ s ++ [' ']⟩

/-- The paragraph loop of `split_text_into_chunks` (lines 68-99). -/
def processParagraphs (maxLength : Nat) : List (List Char) → SplitState → SplitState
  | [], st => st
  | p :: rest, st =>
    if st.cur.length + p.length + 2 > maxLength then
      if p.length > maxLength then
        processParagraphs maxLength rest (processSentences maxLength (splitSentences p) st)
      else
        processParagraphs maxLength rest ⟨st.chunks ++ [pyStrip st.cur], p ++ ['\n', '\n']⟩
    else
      processParagraphs maxLength rest ⟨st.chunks, st.cur ++ p ++ ['\n', '\n']⟩

/-- `split_text_into_chunks(text, max_length)` (lines 53-105). -/
def split_text_into_chunks (text : List Char) (maxLength : Nat) : List (List Char) :=
  if text.length ≤ maxLength then [text]
  else
    let st := processParagraphs maxLength (splitParas text) ⟨[], []⟩
    if (pyStrip st.cur).isEmpty then st.chunks else st.chunks ++ [pyStrip st.cur]

/-- Length of the maximal prefix of `l` whose characters satisfy `p`. -/
def countWhile (p : Char → Bool) : List Char → Nat
  | [] => 0
  | c :: rest => if p c then countWhile p rest + 1 else 0

/-- Index of the last `'\n'` in `l`, if any. -/
def lastNewlinePos : List Char → Option Nat
  | [] => none
  | c :: rest =>
    match lastNewlinePos rest with
    | some k => some (k + 1)
    | none => if c = '\n' then some 0 else none

/-- Matcher for `r'\n\s*\d+\s*\n'` (lines 40 and 43) at the head of `s`:
returns the length of the leftmost match starting here, if any.  Because
`\s`, `\d` are disjoint character classes, the greedy quantifiers consume
maximal runs; the final `\s*\n` backtracks to end right after the last
newline inside the trailing whitespace run. -/
def matchP1 : List Char → Option Nat
  | [] => none
  | c :: rest =>
    if c = '\n' then
      let w1 := countWhile isPyWS rest
      let r1 := rest.drop w1
      let d := countWhile Char.isDigit r1
      if d = 0 then none
      else
        let r2 := r1.drop d
        let w2 := countWhile isPyWS r2
        match lastNewlinePos (r2.take w2) with
        | none => none
        | some k => some (1 + w1 + d + k + 1)
    else none

/-- The character class `[A-Za-z0-9_\-\.]` of the header/footer pattern. -/
def isHF (c : Char) : Bool :=
  c.isAlpha || c.isDigit || c = '_' || c = '-' || c = '.'

/-- Matcher for `r'\n\s*[A-Za-z0-9_\-\.]+\s*\|\s*[A-Za-z0-9_\-\.]+\s*\n'`
(line 46) at the head of `s`.  Same greedy/backtracking analysis as
`matchP1`: `\s` and the bracket class are disjoint and `'|'` belongs to
neither, so every quantifier consumes its maximal run and only the final
`\s*\n` backtracks, to just after the last newline of the trailing run. -/
def matchP3 : List Char → Option Nat
  | [] => none
  | c :: rest =>
    if c = '\n' then
      let w1 := countWhile isPyWS rest
      let r1 := rest.drop w1
      let c1 := countWhile isHF r1
      if c1 = 0 then none
      else
        let r2 := r1.drop c1
        let w2 := countWhile isPyWS r2
        match r2.drop w2 with
        | '|' :: r4 =>
          let w3 := countWhile isPyWS r4
          let r5 := r4.drop w3
          let c2 := countWhile isHF r5
          if c2 = 0 then none
          else
            let r6 := r5.drop c2
            let w4 := countWhile isPyWS r6
            match lastNewlinePos (r6.take w4) with
            | none => none
            | some k => some (1 + w1 + c1 + w2 + 1 + w3 + c2 + k + 1)
        | _ => none
    else none

/-- Matcher for `r'\n{3,}'` (line 49) at the head of `s`: a maximal run of
at least three newlines. -/
def matchP4 : List Char → Option Nat
  | c1 :: c2 :: c3 :: rest =>
    if c1 = '\n' ∧ c2 = '\n' ∧ c3 = '\n' then
      some (3 + countWhile (fun c => c = '\n') rest)
    else none
  | _ => none

/-- The scanning loop of `re.sub`: at each position try the matcher; on a
match of length `n`, emit the replacement and resume after the match; else
keep the character and move one position right.  `fuel` bounds the
recursion; with `fuel = s.length` it never runs out before `s` does,
because every step consumes at least one character. -/
def subAllFuel (m : List Char → Option Nat) (repl : List Char) :
    Nat → List Char → List Char
  | 0, s => s
  | _ + 1, [] => []
  | fuel + 1, c :: rest =>
    match m (c :: rest) with
    | some n =>
      if 0 < n then repl ++ subAllFuel m repl fuel ((c :: rest).drop n)
      else c :: subAllFuel m repl fuel rest
    | none => c :: subAllFuel m repl fuel rest

/-- `re.sub(pattern, repl, s)` for the patterns above. -/
def reSubAll (m : List Char → Option Nat) (repl : List Char) (s : List Char) : List Char :=
  subAllFuel m repl s.length s

/-- `clean_text(text)` (lines 32-51): the page-number substitution twice,
then the header/footer substitution, then the newline collapse. -/
def clean_text (t : List Char) : List Char :=
  let t1 := reSubAll matchP1 ['\n'] t
  let t2 := reSubAll matchP1 ['\n'] t1
  let t3 := reSubAll matchP3 ['\n'] t2
  reSubAll matchP4 ['\n', '\n'] t3

/-- `MAX_TTS_LENGTH` (line 15). -/
def MAX_TTS_LENGTH : Nat := 4000

/-- Audio payloads (`response.content`), embedded as byte lists. -/
abbrev Bytes := List Nat

/-- The transient state of a pipeline run: the chunk files on disk in
`./temp_audio_chunks`, keyed by chunk index (the file name
`chunk_{index:04d}.mp3` is an injective function of the index, so the
index itself serves as the key), and the `chunk_files` slot array
(line 180), which records per chunk index the name of its written file. -/
structure FState where
  files : Nat → Option Bytes
  slots : List (Option Nat)

/-- The `as_completed` loop (lines 181-188) together with the work each
completed task performed (lines 157-169): tasks are visited in the
completion order `order`; a completed task `i` has synthesised chunk `i`
and written the audio to its file, and the loop stores the file name into
slot `i`; the first failed task raises, aborting the loop with the files
written so far still on disk. -/
def runTasks (chunks : List (List Char)) (synth : List Char → Except (List Char) Bytes) :
    List Nat → FState → FState × Option (List Char)
  | [], st => (st, none)
  | i :: rest, st =>
    match synth (chunks.getD i []) with
    | .error e => (st, some e)
    | .ok b =>
      runTasks chunks synth rest
        ⟨fun j => if j = i then some b else st.files j, st.slots.set i (some i)⟩

/-- The assembly loop (lines 192-197): concatenate, in slot order, the
contents of each recorded chunk file, skipping empty slots and names whose
file does not exist. -/
def assembleAudio (files : Nat → Option Bytes) (slots : List (Option Nat)) : Bytes :=
  slots.foldl
    (fun acc slot =>
      match slot with
      | some name =>
        match files name with
        | some b => acc ++ b
        | none => acc
      | none => acc)
    []

/-- The cleanup loop (lines 200-206): remove, in slot order, each recorded
chunk file that exists. -/
def cleanupChunks (files : Nat → Option Bytes) (slots : List (Option Nat)) :
    Nat → Option Bytes :=
  slots.foldl
    (fun fs slot =>
      match slot with
      | some name =>
        if (fs name).isSome then fun j => if j = name then none else fs j else fs
      | none => fs)
    files

/-- The value `process_pdf` hands back to the UI, plus the chunk files
still on disk at the moment it returns.  `audio` is the content written to
`temp_audio.mp3` (the first component of the returned triple names that
file). -/
structure PipelineResult where
  audio : Option Bytes
  error : Option (List Char)
  text : Option (List Char)
  files : Nat → Option Bytes

/-- `process_pdf(pdf_file, api_key, voice, tts_model)` (lines 123-213).
The external collaborators are oracles: `extract` is the outcome of
`extract_text_from_pdf(pdf_file.name)` (line 131) — an exception there, or
anywhere in the `try`, lands in the handler at line 210 — and `synth c` is
the outcome of `generate_audio_chunk(c, api_key, voice, tts_model)`.
`order` is the order in which `as_completed` yields the futures. -/
def process_pdf (api_key : List Char) (extract : Except (List Char) (List Char))
    (synth : List Char → Except (List Char) Bytes) (order : List Nat) : PipelineResult :=
  if api_key = [] then
    ⟨none, some ("OpenAI API key is required".data), none, fun _ => none⟩
  else
    match extract with
    | .error e => ⟨none, some ("An error occurred: ".data ++ e), none, fun _ => none⟩
    | .ok text =>
      let cleaned := clean_text text
      let chunks := split_text_into_chunks cleaned MAX_TTS_LENGTH
      match runTasks chunks synth order ⟨fun _ => none, List.replicate chunks.length none⟩ with
      | (st, some e) => ⟨none, some ("An error occurred: ".data ++ e), none, st.files⟩
      | (st, none) =>
        ⟨some (assembleAudio st.files st.slots), none, some cleaned,
          cleanupChunks st.files st.slots⟩

/-- The subsequence of non-whitespace characters of `s`.  The splitter
only cuts at whitespace and re-inserts whitespace separators, so this is
the content that splitting must preserve. -/
def nonWS (s : List Char) : List Char := s.filter (fun c => !(isPyWS c))

/-- A 4001-character text: 2000 letters, a space, 2000 letters.  Longer
than `MAX_TTS_LENGTH`, so the splitter produces the two chunks
`replicate 2000 'a'` and `replicate 2000 'b'`. -/
def bigText : List Char := List.replicate 2000 'a' ++ [' '] ++ List.replicate 2000 'b'

/-- A synthesis oracle that succeeds on the first chunk of `bigText` (the
letters 'a') and fails on the second (the letters 'b'). -/
def synthBig (c : List Char) : Except (List Char) Bytes :=
  if c.head? = some 'a' then .ok [1] else .error ("boom".data)

/-- The bytes a recorded slot contributes to the assembled output: the
content of its chunk file, or nothing when the slot is empty or the file
is missing. -/
def chunkBytes (files : Nat → Option Bytes) : Option Nat → Bytes
  | some name => (files name).getD []
  | none => []

theorem length_dropWhile_le_chars (p : Char → Bool) (l : List Char) :
    (l.dropWhile p).length ≤ l.length := by
  induction l with
  | nil => simp
  | cons c rest ih =>
    rw [List.dropWhile_cons]
    by_cases h : p c
    · simp only [h, if_true]
      exact Nat.le_trans ih (Nat.le_succ _)
    · simp [h]

theorem pyStrip_length_le (s : List Char) : (pyStrip s).length ≤ s.length := by
  unfold pyStrip
  refine Nat.le_trans (length_dropWhile_le_chars _ _) ?_
  rw [List.length_reverse]
  refine Nat.le_trans (length_dropWhile_le_chars _ _) ?_
  rw [List.length_reverse]

theorem pyStrip_append_ws (s : List Char) (c : Char) (h : isPyWS c = true) :
    pyStrip (s ++ [c]) = pyStrip s := by
  unfold pyStrip
  rw [List.reverse_append]
  simp [List.dropWhile_cons, h]

theorem pyStrip_append_space (s : List Char) : pyStrip (s ++ [' ']) = pyStrip s :=
  pyStrip_append_ws s ' ' (by decide)

theorem pyStrip_append_nn (s : List Char) : pyStrip (s ++ ['\n', '\n']) = pyStrip s := by
  have : s ++ ['\n', '\n'] = (s ++ ['\n']) ++ ['\n'] := by simp
  rw [this, pyStrip_append_ws _ '\n' (by decide), pyStrip_append_ws _ '\n' (by decide)]

theorem processWords_le (B : Nat) (ws : List (List Char)) (st : SplitState)
    (hws : ∀ w ∈ ws, w.length ≤ B)
    (hc : ∀ c ∈ st.chunks, c.length ≤ B)
    (hcur : (pyStrip st.cur).length ≤ B) :
    (∀ c ∈ (processWords B ws st).chunks, c.length ≤ B) ∧
      (pyStrip (processWords B ws st).cur).length ≤ B := by
  induction ws generalizing st with
  | nil => exact ⟨hc, hcur⟩
  | cons w rest ih =>
    have hw : w.length ≤ B := hws w (List.mem_cons_self w rest)
    have hrest : ∀ x ∈ rest, x.length ≤ B := fun x hx => hws x (List.mem_cons_of_mem _ hx)
    simp only [processWords]
    by_cases hg : st.cur.length + w.length + 1 > B
    · simp only [if_pos hg]
      refine ih _ hrest ?_ ?_
      · intro c hcm
        rcases List.mem_append.mp hcm with hcm | hcm
        · exact hc c hcm
        · rw [List.mem_singleton.mp hcm]; exact hcur
      · rw [pyStrip_append_space]
        exact Nat.le_trans (pyStrip_length_le w) hw
    · simp only [if_neg hg]
      refine ih _ hrest hc ?_
      rw [pyStrip_append_space]
      refine Nat.le_trans (pyStrip_length_le _) ?_
      rw [List.length_append]
      omega

theorem processSentences_le (B : Nat) (ss : List (List Char)) (st : SplitState)
    (hss : ∀ s ∈ ss, ∀ w ∈ splitSpaces s, w.length ≤ B)
    (hc : ∀ c ∈ st.chunks, c.length ≤ B)
    (hcur : (pyStrip st.cur).length ≤ B) :
    (∀ c ∈ (processSentences B ss st).chunks, c.length ≤ B) ∧
      (pyStrip (processSentences B ss st).cur).length ≤ B := by
  induction ss generalizing st with
  | nil => exact ⟨hc, hcur⟩
  | cons s rest ih =>
    have hrest : ∀ x ∈ rest, ∀ w ∈ splitSpaces x, w.length ≤ B :=
      fun x hx => hss x (List.mem_cons_of_mem _ hx)
    simp only [processSentences]
    by_cases hg : st.cur.length + s.length + 1 > B
    · simp only [if_pos hg]
      by_cases hbig : s.length > B
      · simp only [if_pos hbig]
        have hw := processWords_le B (splitSpaces s) st
          (hss s (List.mem_cons_self s rest)) hc hcur
        exact ih _ hrest hw.1 hw.2
      · simp only [if_neg hbig]
        refine ih _ hrest ?_ ?_
        · intro c hcm
          rcases List.mem_append.mp hcm with hcm | hcm
          · exact hc c hcm
          · rw [List.mem_singleton.mp hcm]; exact hcur
        · rw [pyStrip_append_space]
          refine Nat.le_trans (pyStrip_length_le s) ?_
          omega
    · simp only [if_neg hg]
      refine ih _ hrest hc ?_
      rw [pyStrip_append_space]
      refine Nat.le_trans (pyStrip_length_le _) ?_
      rw [List.length_append]
      omega

theorem processParagraphs_le (B : Nat) (ps : List (List Char)) (st : SplitState)
    (hps : ∀ p ∈ ps, ∀ s ∈ splitSentences p, ∀ w ∈ splitSpaces s, w.length ≤ B)
    (hc : ∀ c ∈ st.chunks, c.length ≤ B)
    (hcur : (pyStrip st.cur).length ≤ B) :
    (∀ c ∈ (processParagraphs B ps st).chunks, c.length ≤ B) ∧
      (pyStrip (processParagraphs B ps st).cur).length ≤ B := by
  induction ps generalizing st with
  | nil => exact ⟨hc, hcur⟩
  | cons p rest ih =>
    have hrest : ∀ x ∈ rest, ∀ s ∈ splitSentences x, ∀ w ∈ splitSpaces s, w.length ≤ B :=
      fun x hx => hps x (List.mem_cons_of_mem _ hx)
    simp only [processParagraphs]
    by_cases hg : st.cur.length + p.length + 2 > B
    · simp only [if_pos hg]
      by_cases hbig : p.length > B
      · simp only [if_pos hbig]
        have hw := processSentences_le B (splitSentences p) st
          (hps p (List.mem_cons_self p rest)) hc hcur
        exact ih _ hrest hw.1 hw.2
      · simp only [if_neg hbig]
        refine ih _ hrest ?_ ?_
        · intro c hcm
          rcases List.mem_append.mp hcm with hcm | hcm
          · exact hc c hcm
          · rw [List.mem_singleton.mp hcm]; exact hcur
        · rw [pyStrip_append_nn]
          refine Nat.le_trans (pyStrip_length_le p) ?_
          omega
    · simp only [if_neg hg]
      refine ih _ hrest hc ?_
      rw [pyStrip_append_nn]
      refine Nat.le_trans (pyStrip_length_le _) ?_
      rw [List.length_append]
      omega

/-- C1 (amended): for a positive bound B, every chunk returned by
split_text_into_chunks(T, B) has length at most B, PROVIDED every
space-delimited word of every sentence of every paragraph of T has length
at most B.  (The original claim fails: an oversized word is flushed into
the buffer unmodified and becomes a chunk longer than B, see the
counterexample theorem.) -/
theorem split_chunks_length_le (t : List Char) (B : Nat) (_hB : 0 < B)
    (hw : ∀ p ∈ splitParas t, ∀ s ∈ splitSentences p, ∀ w ∈ splitSpaces s, w.length ≤ B) :
    ∀ c ∈ split_text_into_chunks t B, c.length ≤ B := by
  unfold split_text_into_chunks
  by_cases hlen : t.length ≤ B
  · simp only [if_pos hlen]
    intro c hcm
    rw [List.mem_singleton.mp hcm]
    exact hlen
  · simp only [if_neg hlen]
    have h := processParagraphs_le B (splitParas t) ⟨[], []⟩ hw
      (by intro c hcm; simp at hcm) (by simp [pyStrip])
    by_cases he : (pyStrip (processParagraphs B (splitParas t) ⟨[], []⟩).cur).isEmpty
    · simp only [if_pos he]
      exact h.1
    · simp only [if_neg he]
      intro c hcm
      rcases List.mem_append.mp hcm with hcm | hcm
      · exact h.1 c hcm
      · rw [List.mem_singleton.mp hcm]
        exact h.2

/-- C1 counterexample: with text "abcde" and bound 3 the single
space-free word "abcde" exceeds the bound and is emitted as a chunk of
length 5 > 3, so not every chunk is within the bound. -/
theorem split_chunks_length_le_cex :
    ¬ (∀ c ∈ split_text_into_chunks ("abcde".data) 3, c.length ≤ 3) := by
  decide

/-- C1 witness: the amended theorem applied at text "ab cd ef gh" with
bound 4, whose words all fit the bound. -/
theorem split_chunks_length_le_witness :
    (0 < 4 ∧ ∀ p ∈ splitParas ("ab cd ef gh".data), ∀ s ∈ splitSentences p,
        ∀ w ∈ splitSpaces s, w.length ≤ 4) ∧
      ∀ c ∈ split_text_into_chunks ("ab cd ef gh".data) 4, c.length ≤ 4 :=
  ⟨⟨by decide, by decide⟩,
    split_chunks_length_le ("ab cd ef gh".data) 4 (by decide) (by decide)⟩

theorem nonWS_append (a b : List Char) : nonWS (a ++ b) = nonWS a ++ nonWS b := by
  simp [nonWS, List.filter_append]

theorem nonWS_dropWhile (l : List Char) : nonWS (l.dropWhile isPyWS) = nonWS l := by
  induction l with
  | nil => rfl
  | cons c rest ih =>
    rw [List.dropWhile_cons]
    by_cases h : isPyWS c
    · simp only [h, if_true]
      rw [ih]
      simp [nonWS, h]
    · simp [h]

theorem nonWS_reverse (l : List Char) : nonWS l.reverse = (nonWS l).reverse := by
  simp [nonWS, List.filter_reverse]

theorem nonWS_pyStrip (s : List Char) : nonWS (pyStrip s) = nonWS s := by
  unfold pyStrip
  rw [nonWS_dropWhile, nonWS_reverse, nonWS_dropWhile, nonWS_reverse, List.reverse_reverse]

theorem flatten_consHead (c : Char) (L : List (List Char)) :
    (consHead c L).flatten = c :: L.flatten := by
  cases L <;> simp [consHead]

theorem flatten_splitSentences (p : List Char) : (splitSentences p).flatten = p := by
  induction p using splitSentences.induct with
  | case1 => rfl
  | case2 c => rfl
  | case3 c d rest h ih =>
    rcases h with ⟨hc, hd⟩
    subst hc; subst hd
    simp [splitSentences, ih]
  | case4 c d rest h ih =>
    simp only [splitSentences, if_neg h]
    rw [flatten_consHead, ih]

theorem nonWS_nil : nonWS [] = [] := rfl

theorem nonWS_cons_ws (c : Char) (rest : List Char) (h : isPyWS c = true) :
    nonWS (c :: rest) = nonWS rest := by
  simp [nonWS, List.filter_cons, h]

theorem nonWS_flatten_splitSpaces (s : List Char) :
    nonWS (splitSpaces s).flatten = nonWS s := by
  induction s using splitSpaces.induct with
  | case1 => rfl
  | case2 rest ih =>
    rw [show splitSpaces (' ' :: rest) = [] :: splitSpaces rest from by simp [splitSpaces]]
    simp only [List.flatten_cons, List.nil_append]
    rw [nonWS_cons_ws ' ' rest (by decide)]
    exact ih
  | case3 c rest h ih =>
    simp only [splitSpaces, if_neg h]
    rw [flatten_consHead]
    simp only [nonWS, List.filter_cons] at ih ⊢
    rw [ih]

theorem nonWS_flatten_splitParas (t : List Char) :
    nonWS (splitParas t).flatten = nonWS t := by
  induction t using splitParas.induct with
  | case1 => rfl
  | case2 c => rfl
  | case3 c d rest h ih =>
    rcases h with ⟨hc, hd⟩
    subst hc; subst hd
    rw [show splitParas ('\n' :: '\n' :: rest) = [] :: splitParas rest from by
      simp [splitParas]]
    simp only [List.flatten_cons, List.nil_append]
    rw [nonWS_cons_ws '\n' _ (by decide), nonWS_cons_ws '\n' rest (by decide)]
    exact ih
  | case4 c d rest h ih =>
    simp only [splitParas, if_neg h]
    rw [flatten_consHead]
    simp only [nonWS, List.filter_cons] at ih ⊢
    rw [ih]

theorem nonWS_space_singleton : nonWS [' '] = [] := rfl

theorem nonWS_nn : nonWS ['\n', '\n'] = [] := rfl

theorem processWords_nws (B : Nat) (ws : List (List Char)) (st : SplitState) :
    nonWS ((processWords B ws st).chunks.flatten ++ (processWords B ws st).cur)
      = nonWS (st.chunks.flatten ++ st.cur) ++ nonWS ws.flatten := by
  induction ws generalizing st with
  | nil => simp [processWords, nonWS_nil]
  | cons w rest ih =>
    simp only [processWords]
    by_cases hg : st.cur.length + w.length + 1 > B
    · simp only [if_pos hg]
      rw [ih]
      simp [nonWS_append, nonWS_pyStrip, nonWS_space_singleton, List.flatten_append,
        List.flatten_cons, List.append_assoc]
    · simp only [if_neg hg]
      rw [ih]
      simp [nonWS_append, nonWS_space_singleton, List.flatten_cons, List.append_assoc]

theorem processSentences_nws (B : Nat) (ss : List (List Char)) (st : SplitState) :
    nonWS ((processSentences B ss st).chunks.flatten ++ (processSentences B ss st).cur)
      = nonWS (st.chunks.flatten ++ st.cur) ++ nonWS ss.flatten := by
  induction ss generalizing st with
  | nil => simp [processSentences, nonWS_nil]
  | cons s rest ih =>
    simp only [processSentences]
    by_cases hg : st.cur.length + s.length + 1 > B
    · simp only [if_pos hg]
      by_cases hbig : s.length > B
      · simp only [if_pos hbig]
        rw [ih, processWords_nws, nonWS_flatten_splitSpaces]
        simp [nonWS_append, List.flatten_cons, List.append_assoc]
      · simp only [if_neg hbig]
        rw [ih]
        simp [nonWS_append, nonWS_pyStrip, nonWS_space_singleton, List.flatten_append,
          List.flatten_cons, List.append_assoc]
    · simp only [if_neg hg]
      rw [ih]
      simp [nonWS_append, nonWS_space_singleton, List.flatten_cons, List.append_assoc]

theorem processParagraphs_nws (B : Nat) (ps : List (List Char)) (st : SplitState) :
    nonWS ((processParagraphs B ps st).chunks.flatten ++ (processParagraphs B ps st).cur)
      = nonWS (st.chunks.flatten ++ st.cur) ++ nonWS ps.flatten := by
  induction ps generalizing st with
  | nil => simp [processParagraphs, nonWS_nil]
  | cons p rest ih =>
    simp only [processParagraphs]
    by_cases hg : st.cur.length + p.length + 2 > B
    · simp only [if_pos hg]
      by_cases hbig : p.length > B
      · simp only [if_pos hbig]
        rw [ih, processSentences_nws, flatten_splitSentences]
        simp [nonWS_append, List.flatten_cons, List.append_assoc]
      · simp only [if_neg hbig]
        rw [ih]
        simp [nonWS_append, nonWS_pyStrip, nonWS_nn, List.flatten_append,
          List.flatten_cons, List.append_assoc]
    · simp only [if_neg hg]
      rw [ih]
      simp [nonWS_append, nonWS_nn, List.flatten_cons, List.append_assoc]

/-- C2 (amended): splitting preserves exactly the sequence of
non-whitespace characters of T — no content is dropped or duplicated —
but only up to whitespace.  (The original claim of exact reconstruction
fails: the sentence loop appends an extra space after a sentence that
already ends in a period-space, and replaces the paragraph separator after
an oversized paragraph by a space; see the counterexample theorem.) -/
theorem split_chunks_preserve_nonWS (t : List Char) (B : Nat) :
    nonWS (split_text_into_chunks t B).flatten = nonWS t := by
  unfold split_text_into_chunks
  by_cases hlen : t.length ≤ B
  · simp [if_pos hlen]
  · simp only [if_neg hlen]
    have h := processParagraphs_nws B (splitParas t) ⟨[], []⟩
    simp only [List.flatten_nil, List.append_nil, List.nil_append, nonWS_nil,
      nonWS_flatten_splitParas] at h
    set stf := processParagraphs B (splitParas t) ⟨[], []⟩ with hstf
    by_cases he : (pyStrip stf.cur).isEmpty
    · simp only [if_pos he]
      have hcur : nonWS stf.cur = [] := by
        rw [← nonWS_pyStrip, List.isEmpty_iff.mp he, nonWS_nil]
      rw [nonWS_append, hcur, List.append_nil] at h
      exact h
    · simp only [if_neg he]
      rw [List.flatten_append, List.flatten_cons, List.flatten_nil, List.append_nil,
        nonWS_append, nonWS_pyStrip, ← nonWS_append]
      exact h

/-- C2 counterexample: for text "a. b. cccccc" and bound 9, the splitter
returns the chunks "a.  b." and "cccccc"; the first chunk contains a
double space the input never had, so re-joining the chunks with the
algorithm's own separator (a single space at a sentence split), or with
the paragraph separator, does not reconstruct the input. -/
theorem split_reconstruction_cex :
    split_text_into_chunks ("a. b. cccccc".data) 9
        = ["a.  b.".data, "cccccc".data] ∧
      "a.  b.".data ++ " ".data ++ "cccccc".data ≠ "a. b. cccccc".data ∧
      "a.  b.".data ++ "\n\n".data ++ "cccccc".data ≠ "a. b. cccccc".data := by
  refine ⟨by decide, by decide, by decide⟩

/-- C7 (amended): for text already within the bound the splitter returns
exactly one chunk equal to the text UNCHANGED — the fast path at lines
58-60 performs no trimming.  (The original claim said the single chunk is
the trimmed text; see the counterexample theorem.) -/
theorem split_short_text_single_chunk (t : List Char) (B : Nat) (h : t.length ≤ B) :
    split_text_into_chunks t B = [t] := by
  unfold split_text_into_chunks
  rw [if_pos h]

/-- C7 counterexample: the text " a " is within the bound 5, and the
splitter returns [" a "], not the trimmed ["a"] the claim requires. -/
theorem split_short_text_single_chunk_cex :
    split_text_into_chunks (" a ".data) 5 ≠ [pyStrip (" a ".data)] := by
  decide

/-- C7 witness: the amended theorem applied to "hi" with bound 4000. -/
theorem split_short_text_single_chunk_witness :
    ("hi".data.length ≤ 4000) ∧ split_text_into_chunks ("hi".data) 4000 = ["hi".data] :=
  ⟨by decide, split_short_text_single_chunk ("hi".data) 4000 (by decide)⟩

theorem countWhile_le (p : Char → Bool) (l : List Char) : countWhile p l ≤ l.length := by
  induction l with
  | nil => simp [countWhile]
  | cons c rest ih =>
    simp only [countWhile]
    by_cases h : p c
    · simp only [if_pos h, List.length_cons]
      omega
    · simp [if_neg h]

theorem lastNewlinePos_lt (l : List Char) (k : Nat) (h : lastNewlinePos l = some k) :
    k < l.length := by
  induction l generalizing k with
  | nil => simp [lastNewlinePos] at h
  | cons c rest ih =>
    simp only [lastNewlinePos] at h
    cases hrest : lastNewlinePos rest with
    | some j =>
      rw [hrest] at h
      have := ih j hrest
      simp only [Option.some.injEq] at h
      simp only [List.length_cons]
      omega
    | none =>
      rw [hrest] at h
      by_cases hc : c = '\n'
      · rw [if_pos hc] at h
        simp only [Option.some.injEq] at h
        simp only [List.length_cons]
        omega
      · rw [if_neg hc] at h
        exact absurd h (by simp)

theorem matchP1_bound (s : List Char) (n : Nat) (h : matchP1 s = some n) :
    1 ≤ n ∧ n ≤ s.length := by
  cases s with
  | nil => simp [matchP1] at h
  | cons c rest =>
    simp only [matchP1] at h
    split at h
    · split at h
      · exact absurd h (by simp)
      · split at h
        · exact absurd h (by simp)
        · rename_i k hlast
          simp only [Option.some.injEq] at h
          have hk := lastNewlinePos_lt _ _ hlast
          have h1 := countWhile_le isPyWS rest
          have h2 := countWhile_le Char.isDigit (List.drop (countWhile isPyWS rest) rest)
          simp only [List.length_take, List.length_drop, List.length_cons] at hk h2 ⊢
          omega
    · exact absurd h (by simp)

theorem matchP3_bound (s : List Char) (n : Nat) (h : matchP3 s = some n) :
    1 ≤ n ∧ n ≤ s.length := by
  cases s with
  | nil => simp [matchP3] at h
  | cons c rest =>
    simp only [matchP3] at h
    split at h
    · split at h
      · exact absurd h (by simp)
      · split at h
        · rename_i r4 heq
          split at h
          · exact absurd h (by simp)
          · split at h
            · exact absurd h (by simp)
            · rename_i k hlast
              simp only [Option.some.injEq] at h
              have hk := lastNewlinePos_lt _ _ hlast
              have h1 := countWhile_le isPyWS rest
              have h2 := countWhile_le isHF (List.drop (countWhile isPyWS rest) rest)
              have h3 := countWhile_le isPyWS
                (List.drop (countWhile isHF (List.drop (countWhile isPyWS rest) rest))
                  (List.drop (countWhile isPyWS rest) rest))
              have h4 := congrArg List.length heq
              have h5 := countWhile_le isPyWS r4
              have h6 := countWhile_le isHF (List.drop (countWhile isPyWS r4) r4)
              simp only [List.length_take, List.length_drop,
                List.length_cons] at hk h2 h3 h4 h5 h6 ⊢
              omega
        · exact absurd h (by simp)
    · exact absurd h (by simp)

theorem matchP4_bound (s : List Char) (n : Nat) (h : matchP4 s = some n) :
    2 ≤ n ∧ n ≤ s.length := by
  rcases s with _ | ⟨c1, _ | ⟨c2, _ | ⟨c3, rest⟩⟩⟩
  · simp [matchP4] at h
  · simp [matchP4] at h
  · simp [matchP4] at h
  · simp only [matchP4] at h
    split at h
    · simp only [Option.some.injEq] at h
      have := countWhile_le (fun c => c = '\n') rest
      simp only [List.length_cons]
      omega
    · exact absurd h (by simp)

theorem subAllFuel_length_le (m : List Char → Option Nat) (repl : List Char)
    (hm : ∀ s n, m s = some n → repl.length ≤ n ∧ n ≤ s.length) :
    ∀ fuel s, (subAllFuel m repl fuel s).length ≤ s.length := by
  intro fuel
  induction fuel with
  | zero => intro s; simp [subAllFuel]
  | succ f ih =>
    intro s
    cases s with
    | nil => simp [subAllFuel]
    | cons c rest =>
      simp only [subAllFuel]
      cases hm' : m (c :: rest) with
      | none =>
        simp only [List.length_cons]
        have := ih rest
        omega
      | some n =>
        by_cases hn : 0 < n
        · simp only [if_pos hn, List.length_append]
          have hb := hm _ _ hm'
          have hrec := ih (List.drop n (c :: rest))
          simp only [List.length_drop, List.length_cons] at hrec hb ⊢
          omega
        · simp only [if_neg hn, List.length_cons]
          have := ih rest
          omega

theorem reSubAll_length_le (m : List Char → Option Nat) (repl : List Char)
    (hm : ∀ s n, m s = some n → repl.length ≤ n ∧ n ≤ s.length) (s : List Char) :
    (reSubAll m repl s).length ≤ s.length :=
  subAllFuel_length_le m repl hm s.length s

/-- C10: clean_text never lengthens its input — every substitution it
performs replaces a matched span (length at least 3 for the page-number
and header/footer patterns, at least 3 for the newline run) by a strictly
shorter replacement, so the output length is at most the input length. -/
theorem clean_text_length_le (t : List Char) : (clean_text t).length ≤ t.length := by
  unfold clean_text
  have hm1 : ∀ s n, matchP1 s = some n →
      (['\n'] : List Char).length ≤ n ∧ n ≤ s.length := by
    intro s n h
    simpa using matchP1_bound s n h
  have hm3 : ∀ s n, matchP3 s = some n →
      (['\n'] : List Char).length ≤ n ∧ n ≤ s.length := by
    intro s n h
    simpa using matchP3_bound s n h
  have hm4 : ∀ s n, matchP4 s = some n →
      (['\n', '\n'] : List Char).length ≤ n ∧ n ≤ s.length := by
    intro s n h
    simpa using matchP4_bound s n h
  exact le_trans (reSubAll_length_le _ _ hm4 _)
    (le_trans (reSubAll_length_le _ _ hm3 _)
      (le_trans (reSubAll_length_le _ _ hm1 _) (reSubAll_length_le _ _ hm1 _)))

theorem matchP1_no_newline (s : List Char) (h : '\n' ∉ s) : matchP1 s = none := by
  cases s with
  | nil => rfl
  | cons c rest =>
    have hc : ¬(c = '\n') := by
      intro hh
      exact h (hh ▸ List.mem_cons_self c rest)
    simp [matchP1, hc]

theorem matchP3_no_newline (s : List Char) (h : '\n' ∉ s) : matchP3 s = none := by
  cases s with
  | nil => rfl
  | cons c rest =>
    have hc : ¬(c = '\n') := by
      intro hh
      exact h (hh ▸ List.mem_cons_self c rest)
    simp [matchP3, hc]

theorem matchP4_no_newline (s : List Char) (h : '\n' ∉ s) : matchP4 s = none := by
  rcases s with _ | ⟨c1, _ | ⟨c2, _ | ⟨c3, rest⟩⟩⟩
  · rfl
  · rfl
  · rfl
  · have hc : ¬(c1 = '\n' ∧ c2 = '\n' ∧ c3 = '\n') := by
      rintro ⟨h1, _, _⟩
      exact h (h1 ▸ List.mem_cons_self c1 _)
    simp [matchP4, hc]

theorem subAllFuel_id (m : List Char → Option Nat) (repl : List Char)
    (hm : ∀ s, '\n' ∉ s → m s = none) :
    ∀ fuel s, '\n' ∉ s → subAllFuel m repl fuel s = s := by
  intro fuel
  induction fuel with
  | zero => intro s _; rfl
  | succ f ih =>
    intro s hs
    cases s with
    | nil => rfl
    | cons c rest =>
      have hrest : '\n' ∉ rest := fun hh => hs (List.mem_cons_of_mem c hh)
      simp only [subAllFuel, hm (c :: rest) hs]
      rw [ih rest hrest]

theorem reSubAll_id (m : List Char → Option Nat) (repl : List Char)
    (hm : ∀ s, '\n' ∉ s → m s = none) (s : List Char) (h : '\n' ∉ s) :
    reSubAll m repl s = s :=
  subAllFuel_id m repl hm s.length s h

theorem clean_text_id_no_newline (t : List Char) (h : '\n' ∉ t) : clean_text t = t := by
  show reSubAll matchP4 ['\n', '\n']
      (reSubAll matchP3 ['\n'] (reSubAll matchP1 ['\n'] (reSubAll matchP1 ['\n'] t))) = t
  rw [reSubAll_id matchP1 _ matchP1_no_newline t h,
    reSubAll_id matchP1 _ matchP1_no_newline t h,
    reSubAll_id matchP3 _ matchP3_no_newline t h,
    reSubAll_id matchP4 _ matchP4_no_newline t h]

/-- C6 (amended): clean_text is NOT idempotent in general — because
re.sub replaces non-overlapping matches in a single left-to-right scan, a
second application can remove standalone number lines the first one left
behind (see the counterexample theorem).  Idempotence does hold on texts
containing no newline, where clean_text is the identity (every pattern
requires a newline). -/
theorem clean_text_idempotent_no_newline (t : List Char) (h : '\n' ∉ t) :
    clean_text (clean_text t) = clean_text t := by
  rw [clean_text_id_no_newline t h, clean_text_id_no_newline t h]

/-- C6 counterexample: on the text with standalone number lines 1..5 a
first clean_text pass yields a newline, '4', a newline; a second pass also
removes that line, so applying the normaliser twice differs from applying
it once. -/
theorem clean_text_idempotent_cex :
    clean_text (clean_text ("\n1\n2\n3\n4\n5\n".data)) ≠
      clean_text ("\n1\n2\n3\n4\n5\n".data) := by
  decide

/-- C6 witness: the amended theorem applied to the newline-free text
"abc". -/
theorem clean_text_idempotent_no_newline_witness :
    ('\n' ∉ "abc".data) ∧ clean_text (clean_text ("abc".data)) = clean_text ("abc".data) :=
  ⟨by decide, clean_text_idempotent_no_newline ("abc".data) (by decide)⟩

theorem runTasks_ok (chunks : List (List Char))
    (synth : List Char → Except (List Char) Bytes) (f : List Char → Bytes)
    (hok : ∀ c ∈ chunks, synth c = .ok (f c)) :
    ∀ (order : List Nat) (st : FState),
      (∀ i ∈ order, i < chunks.length) →
      st.slots.length = chunks.length →
      (runTasks chunks synth order st).2 = none ∧
      (∀ j, ((runTasks chunks synth order st).1).files j
          = if j ∈ order then some (f (chunks.getD j [])) else st.files j) ∧
      ((runTasks chunks synth order st).1).slots.length = chunks.length ∧
      (∀ j, ((runTasks chunks synth order st).1).slots[j]?
          = if j ∈ order ∧ j < chunks.length then some (some j) else st.slots[j]?) := by
  intro order
  induction order with
  | nil =>
    intro st _ hlen
    refine ⟨rfl, fun j => by simp [runTasks], by simpa [runTasks] using hlen, fun j => by
      simp [runTasks]⟩
  | cons i rest ih =>
    intro st horder hlen
    have hi : i < chunks.length := horder i (List.mem_cons_self i rest)
    have hmem : chunks.getD i [] ∈ chunks := by
      rw [List.getD_eq_getElem chunks [] hi]
      exact List.getElem_mem hi
    have hsynth := hok _ hmem
    simp only [runTasks, hsynth]
    have hrest := ih ⟨fun j => if j = i then some (f (chunks.getD i [])) else st.files j,
        st.slots.set i (some i)⟩
      (fun j hj => horder j (List.mem_cons_of_mem _ hj))
      (by simpa using hlen)
    refine ⟨hrest.1, ?_, hrest.2.2.1, ?_⟩
    · intro j
      rw [hrest.2.1 j]
      by_cases hjr : j ∈ rest
      · simp [hjr, List.mem_cons]
      · by_cases hji : j = i
        · subst hji
          simp [hjr, List.mem_cons]
        · simp [hjr, hji, List.mem_cons]
    · intro j
      rw [hrest.2.2.2 j]
      by_cases hjr : j ∈ rest
      · by_cases hjc : j < chunks.length
        · simp [hjr, hjc, List.mem_cons]
        · have hij : ¬(i = j) := fun hh => hjc (hh ▸ hi)
          rw [List.getElem?_set]
          simp [hjr, hjc, List.mem_cons, hij]
      · rw [List.getElem?_set]
        by_cases hji : i = j
        · subst hji
          simp [hjr, hi, hlen, List.mem_cons]
        · simp only [if_neg hji]
          have hnm : ¬(j ∈ i :: rest) := by
            intro hmem
            rcases List.mem_cons.mp hmem with h1 | h1
            · exact hji h1.symm
            · exact hjr h1
          rw [if_neg (fun hc => hjr hc.1), if_neg (fun hc => hnm hc.1)]

theorem runTasks_fails (chunks : List (List Char))
    (synth : List Char → Except (List Char) Bytes) :
    ∀ (order : List Nat) (st : FState),
      (∃ i ∈ order, ∃ e, synth (chunks.getD i []) = .error e) →
      ∃ e', (runTasks chunks synth order st).2 = some e' := by
  intro order
  induction order with
  | nil =>
    rintro st ⟨i, hi, _⟩
    simp at hi
  | cons i rest ih =>
    rintro st ⟨j, hj, e, he⟩
    simp only [runTasks]
    cases hs : synth (chunks.getD i []) with
    | error e2 => exact ⟨e2, rfl⟩
    | ok b =>
      rcases List.mem_cons.mp hj with hji | hjr
      · rw [hji] at he
        rw [he] at hs
        cases hs
      · exact ih _ ⟨j, hjr, e, he⟩

theorem assembleAudio_go (files : Nat → Option Bytes) :
    ∀ (slots : List (Option Nat)) (acc : Bytes),
      List.foldl
        (fun acc slot =>
          match slot with
          | some name =>
            match files name with
            | some b => acc ++ b
            | none => acc
          | none => acc)
        acc slots
      = acc ++ (slots.map (chunkBytes files)).flatten := by
  intro slots
  induction slots with
  | nil => intro acc; simp
  | cons s rest ih =>
    intro acc
    simp only [List.foldl_cons, List.map_cons, List.flatten_cons]
    cases s with
    | none =>
      rw [ih]
      simp [chunkBytes]
    | some name =>
      cases hf : files name with
      | none =>
        rw [ih]
        simp [chunkBytes, hf]
      | some b =>
        rw [ih]
        simp [chunkBytes, hf, List.append_assoc]

theorem assembleAudio_eq_flatten (files : Nat → Option Bytes) (slots : List (Option Nat)) :
    assembleAudio files slots = (slots.map (chunkBytes files)).flatten := by
  unfold assembleAudio
  rw [assembleAudio_go]
  simp

theorem cleanupChunks_apply (slots : List (Option Nat)) :
    ∀ (files : Nat → Option Bytes) (j : Nat),
      cleanupChunks files slots j = if (some j) ∈ slots then none else files j := by
  induction slots with
  | nil => intro files j; simp [cleanupChunks]
  | cons s rest ih =>
    intro files j
    cases s with
    | none =>
      have hstep : cleanupChunks files (none :: rest) = cleanupChunks files rest := rfl
      rw [hstep, ih]
      simp [List.mem_cons]
    | some name =>
      have hstep : cleanupChunks files (some name :: rest)
          = cleanupChunks
            (if (files name).isSome then (fun j => if j = name then none else files j)
              else files) rest := rfl
      rw [hstep]
      by_cases hf : (files name).isSome
      · rw [if_pos hf, ih]
        by_cases hjr : some j ∈ rest
        · simp [hjr, List.mem_cons]
        · by_cases hji : j = name
          · subst hji
            simp [hjr, List.mem_cons]
          · have hsj : ¬((some j : Option Nat) = some name) := by simp [hji]
            simp [hjr, hji, hsj, List.mem_cons]
      · rw [if_neg hf, ih]
        by_cases hjr : some j ∈ rest
        · simp [hjr, List.mem_cons]
        · by_cases hji : j = name
          · subst hji
            have hn : files j = none := Option.not_isSome_iff_eq_none.mp hf
            simp [hjr, List.mem_cons, hn]
          · have hsj : ¬((some j : Option Nat) = some name) := by simp [hji]
            simp [hjr, hji, hsj, List.mem_cons]

theorem runTasks_success_state (chunks : List (List Char))
    (synth : List Char → Except (List Char) Bytes) (f : List Char → Bytes)
    (hok : ∀ c ∈ chunks, synth c = .ok (f c)) (order : List Nat)
    (hperm : order.Perm (List.range chunks.length)) :
    ∃ st : FState,
      runTasks chunks synth order ⟨fun _ => none, List.replicate chunks.length none⟩
          = (st, none)
        ∧ st.slots = (List.range chunks.length).map some
        ∧ ∀ j, st.files j
            = if j < chunks.length then some (f (chunks.getD j [])) else none := by
  have horder : ∀ i ∈ order, i < chunks.length := fun i hi =>
    List.mem_range.mp (hperm.mem_iff.mp hi)
  obtain ⟨hnone, hfiles, hslen, hslots⟩ := runTasks_ok chunks synth f hok order
    ⟨fun _ => none, List.replicate chunks.length none⟩ horder (by simp)
  refine ⟨(runTasks chunks synth order
    ⟨fun _ => none, List.replicate chunks.length none⟩).1, ?_, ?_, ?_⟩
  · calc runTasks chunks synth order ⟨fun _ => none, List.replicate chunks.length none⟩
        = ((runTasks chunks synth order
            ⟨fun _ => none, List.replicate chunks.length none⟩).1,
          (runTasks chunks synth order
            ⟨fun _ => none, List.replicate chunks.length none⟩).2) := (Prod.mk.eta).symm
      _ = _ := by rw [hnone]
  · apply List.ext_getElem?
    intro j
    rw [hslots j]
    by_cases hj : j < chunks.length
    · have hjo : j ∈ order := hperm.mem_iff.mpr (List.mem_range.mpr hj)
      rw [if_pos ⟨hjo, hj⟩, List.getElem?_map, List.getElem?_range hj]
      rfl
    · have hjo : j ∉ order := fun hmem => hj (horder j hmem)
      rw [if_neg (fun hc => hjo hc.1), List.getElem?_replicate, if_neg hj,
        List.getElem?_eq_none (by simpa using Nat.le_of_not_lt hj)]
  · intro j
    rw [hfiles j]
    by_cases hj : j < chunks.length
    · have hjo : j ∈ order := hperm.mem_iff.mpr (List.mem_range.mpr hj)
      rw [if_pos hjo, if_pos hj]
    · have hjo : j ∉ order := fun hmem => hj (horder j hmem)
      rw [if_neg hjo, if_neg hj]

/-- C8: with a missing (empty) API key, process_pdf returns the
precondition-failure triple at line 126 and never consults the extraction
or synthesis collaborators: the result is a constant, identical for every
extraction outcome, every synthesis oracle and every completion order. -/
theorem process_pdf_missing_key (extract : Except (List Char) (List Char))
    (synth : List Char → Except (List Char) Bytes) (order : List Nat) :
    process_pdf [] extract synth order
      = ⟨none, some ("OpenAI API key is required".data), none, fun _ => none⟩ := rfl

/-- C9: every result of process_pdf has audio present exactly when the
error is absent, and the cleaned text present exactly when the error is
absent: the three return statements are (audio, None, text) on success and
(None, message, None) on the missing-key and exception paths. -/
theorem process_pdf_result_shape (k : List Char) (extract : Except (List Char) (List Char))
    (synth : List Char → Except (List Char) Bytes) (order : List Nat) :
    ((process_pdf k extract synth order).audio.isSome
        = (process_pdf k extract synth order).error.isNone)
      ∧ ((process_pdf k extract synth order).text.isSome
        = (process_pdf k extract synth order).error.isNone) := by
  simp only [process_pdf]
  by_cases hk : k = []
  · simp [hk]
  · rw [if_neg hk]
    cases extract with
    | error e => simp
    | ok t =>
      simp only
      split
      · simp
      · simp

/-- C4: if any one of the dispatched synthesis tasks fails, process_pdf
returns no audio, no text, and a non-empty error message: the exception
raised at line 188 reaches the handler at line 210, and no assembly takes
place. -/
theorem process_pdf_fails_on_task_failure (k t : List Char) (hk : ¬(k = []))
    (synth : List Char → Except (List Char) Bytes) (order : List Nat)
    (hperm : order.Perm
      (List.range (split_text_into_chunks (clean_text t) MAX_TTS_LENGTH).length))
    (hfail : ∃ c ∈ split_text_into_chunks (clean_text t) MAX_TTS_LENGTH,
      ∃ e, synth c = .error e) :
    (process_pdf k (.ok t) synth order).audio = none ∧
      (process_pdf k (.ok t) synth order).text = none ∧
      ∃ m, (process_pdf k (.ok t) synth order).error = some m ∧ m ≠ [] := by
  obtain ⟨c, hc, e, he⟩ := hfail
  obtain ⟨i, hi, hci⟩ := List.getElem_of_mem hc
  have hio : i ∈ order := hperm.mem_iff.mpr (List.mem_range.mpr hi)
  have hgd : synth ((split_text_into_chunks (clean_text t) MAX_TTS_LENGTH).getD i [])
      = .error e := by
    rw [List.getD_eq_getElem _ [] hi, hci]
    exact he
  obtain ⟨e', he'⟩ := runTasks_fails _ synth order
    ⟨fun _ => none,
      List.replicate (split_text_into_chunks (clean_text t) MAX_TTS_LENGTH).length none⟩
    ⟨i, hio, e, hgd⟩
  simp only [process_pdf, if_neg hk]
  split
  · rename_i st e2 heq
    refine ⟨rfl, rfl, "An error occurred: ".data ++ e2, rfl, ?_⟩
    intro hnil
    exact absurd (List.append_eq_nil.mp hnil).1 (by decide)
  · rename_i st heq
    rw [heq] at he'
    simp at he'

/-- C3: with every synthesis task succeeding, the audio output of
process_pdf is the byte-concatenation of the per-chunk synthesis results
in ascending chunk-index order, for EVERY completion order of the tasks:
results are stored into the slot array by index (line 185) and the files
are concatenated in slot order (lines 194-197). -/
theorem process_pdf_output_ordered (k t : List Char) (hk : ¬(k = []))
    (synth : List Char → Except (List Char) Bytes) (f : List Char → Bytes)
    (hok : ∀ c ∈ split_text_into_chunks (clean_text t) MAX_TTS_LENGTH,
      synth c = .ok (f c))
    (order : List Nat)
    (hperm : order.Perm
      (List.range (split_text_into_chunks (clean_text t) MAX_TTS_LENGTH).length)) :
    (process_pdf k (.ok t) synth order).audio
      = some (((split_text_into_chunks (clean_text t) MAX_TTS_LENGTH).map f).flatten) := by
  obtain ⟨st, hrun, hslots, hfiles⟩ :=
    runTasks_success_state (split_text_into_chunks (clean_text t) MAX_TTS_LENGTH)
      synth f hok order hperm
  simp only [process_pdf, if_neg hk]
  split
  · rename_i st2 e2 heq
    rw [heq] at hrun
    simp at hrun
  · rename_i st2 heq
    rw [heq] at hrun
    have hst : st2 = st := by
      have := congrArg Prod.fst hrun
      simpa using this
    subst hst
    simp only [Option.some.injEq]
    rw [assembleAudio_eq_flatten, hslots, List.map_map]
    congr 1
    apply List.ext_getElem
    · simp
    · intro i h1 h2
      simp only [List.getElem_map, List.getElem_range, Function.comp_apply, chunkBytes]
      have hic : i < (split_text_into_chunks (clean_text t) MAX_TTS_LENGTH).length := by
        simpa using h2
      rw [hfiles i, if_pos hic,
        List.getD_eq_getElem (split_text_into_chunks (clean_text t) MAX_TTS_LENGTH) [] hic]
      rfl

/-- C5 (amended): on the SUCCESS path every per-chunk audio file is
removed before process_pdf returns (the cleanup loop at lines 200-206
runs after assembly); but on a failure the cleanup loop is skipped — the
exception jumps from line 188 to the handler at line 210 — so chunk files
already written remain on disk (see the counterexample theorem). -/
theorem process_pdf_success_cleanup (k t : List Char) (hk : ¬(k = []))
    (synth : List Char → Except (List Char) Bytes) (f : List Char → Bytes)
    (hok : ∀ c ∈ split_text_into_chunks (clean_text t) MAX_TTS_LENGTH,
      synth c = .ok (f c))
    (order : List Nat)
    (hperm : order.Perm
      (List.range (split_text_into_chunks (clean_text t) MAX_TTS_LENGTH).length)) :
    ∀ j, (process_pdf k (.ok t) synth order).files j = none := by
  obtain ⟨st, hrun, hslots, hfiles⟩ :=
    runTasks_success_state (split_text_into_chunks (clean_text t) MAX_TTS_LENGTH)
      synth f hok order hperm
  intro j
  simp only [process_pdf, if_neg hk]
  split
  · rename_i st2 e2 heq
    rw [heq] at hrun
    simp at hrun
  · rename_i st2 heq
    rw [heq] at hrun
    have hst : st2 = st := by
      have := congrArg Prod.fst hrun
      simpa using this
    subst hst
    show cleanupChunks st2.files st2.slots j = none
    rw [cleanupChunks_apply, hslots]
    by_cases hj : j < (split_text_into_chunks (clean_text t) MAX_TTS_LENGTH).length
    · rw [if_pos ?_]
      simp only [List.mem_map]
      exact ⟨j, List.mem_range.mpr hj, rfl⟩
    · rw [if_neg ?_, hfiles j, if_neg hj]
      simp only [List.mem_map]
      rintro ⟨x, hx, hxj⟩
      exact hj (by rw [← Option.some.inj hxj]; exact List.mem_range.mp hx)

/-- C3 witness: the ordered-output theorem applied to a one-chunk run. -/
theorem process_pdf_output_ordered_witness :
    (process_pdf ("k".data) (.ok ("hi".data)) (fun _ => .ok [7]) [0]).audio
      = some (((split_text_into_chunks (clean_text ("hi".data)) MAX_TTS_LENGTH).map
          (fun _ => [7])).flatten) :=
  process_pdf_output_ordered ("k".data) ("hi".data) (by decide) (fun _ => .ok [7])
    (fun _ => [7]) (fun _ _ => rfl) [0] (by decide)

/-- C4 witness: the failure-propagation theorem applied to a run whose
single synthesis task fails. -/
theorem process_pdf_fails_on_task_failure_witness :
    (process_pdf ("k".data) (.ok ("hi".data)) (fun _ => .error ("boom".data)) [0]).audio
        = none ∧
      (process_pdf ("k".data) (.ok ("hi".data)) (fun _ => .error ("boom".data)) [0]).text
        = none ∧
      ∃ m, (process_pdf ("k".data) (.ok ("hi".data))
          (fun _ => .error ("boom".data)) [0]).error = some m ∧ m ≠ [] :=
  process_pdf_fails_on_task_failure ("k".data) ("hi".data) (by decide)
    (fun _ => .error ("boom".data)) [0] (by decide)
    ⟨"hi".data, by decide, "boom".data, rfl⟩

/-- C5 witness: the success-path cleanup theorem applied to a one-chunk
run; the chunk file with index 0 is gone when the call returns. -/
theorem process_pdf_success_cleanup_witness :
    (process_pdf ("k".data) (.ok ("hi".data)) (fun _ => .ok [7]) [0]).files 0 = none :=
  process_pdf_success_cleanup ("k".data) ("hi".data) (by decide) (fun _ => .ok [7])
    (fun _ => [7]) (fun _ _ => rfl) [0] (by decide) 0

theorem dropWhile_eq_self_of_none (p : Char → Bool) (l : List Char)
    (h : ∀ c ∈ l, p c = false) : l.dropWhile p = l := by
  cases l with
  | nil => rfl
  | cons c rest =>
    rw [List.dropWhile_cons, h c (List.mem_cons_self c rest)]
    simp

theorem pyStrip_no_ws (s : List Char) (h : ∀ c ∈ s, isPyWS c = false) : pyStrip s = s := by
  unfold pyStrip
  rw [dropWhile_eq_self_of_none _ _ (fun c hc => h c (List.mem_reverse.mp hc)),
    List.reverse_reverse, dropWhile_eq_self_of_none _ _ h]

theorem splitParas_no_newline (s : List Char) (h : '\n' ∉ s) : splitParas s = [s] := by
  induction s using splitParas.induct with
  | case1 => rfl
  | case2 c => rfl
  | case3 c d rest hcd ih =>
    rcases hcd with ⟨hc, _⟩
    subst hc
    exact absurd (List.mem_cons_self _ _) h
  | case4 c d rest hcd ih =>
    have hrest : '\n' ∉ d :: rest := fun hm => h (List.mem_cons_of_mem c hm)
    simp only [splitParas, if_neg hcd]
    rw [ih hrest]
    rfl

theorem splitSentences_no_dot (s : List Char) (h : '.' ∉ s) : splitSentences s = [s] := by
  induction s using splitSentences.induct with
  | case1 => rfl
  | case2 c => rfl
  | case3 c d rest hcd ih =>
    rcases hcd with ⟨hc, _⟩
    subst hc
    exact absurd (List.mem_cons_self _ _) h
  | case4 c d rest hcd ih =>
    have hrest : '.' ∉ d :: rest := fun hm => h (List.mem_cons_of_mem c hm)
    simp only [splitSentences, if_neg hcd]
    rw [ih hrest]
    rfl

theorem splitSpaces_no_space (s : List Char) (h : ' ' ∉ s) : splitSpaces s = [s] := by
  induction s using splitSpaces.induct with
  | case1 => rfl
  | case2 rest ih => exact absurd (List.mem_cons_self _ _) h
  | case3 c rest hc ih =>
    have hrest : ' ' ∉ rest := fun hm => h (List.mem_cons_of_mem c hm)
    simp only [splitSpaces, if_neg hc]
    rw [ih hrest]
    rfl

theorem splitSpaces_two_words (u v : List Char) (hu : ' ' ∉ u) (hv : ' ' ∉ v) :
    splitSpaces (u ++ ' ' :: v) = [u, v] := by
  induction u with
  | nil =>
    simp only [List.nil_append]
    rw [show splitSpaces (' ' :: v) = [] :: splitSpaces v from by simp [splitSpaces]]
    rw [splitSpaces_no_space v hv]
  | cons c u2 ih =>
    have hc : ¬(c = ' ') := fun hh => hu (by rw [← hh] at *; exact List.mem_cons_self c u2)
    have hu2 : ' ' ∉ u2 := fun hm => hu (List.mem_cons_of_mem c hm)
    simp only [List.cons_append, splitSpaces, if_neg hc]
    rw [show u2.append (' ' :: v) = u2 ++ ' ' :: v from rfl, ih hu2]
    rfl

theorem split_two_words (u v : List Char) (B : Nat)
    (hu : ' ' ∉ u) (hv : ' ' ∉ v)
    (hnl : '\n' ∉ u ++ ' ' :: v) (hnd : '.' ∉ u ++ ' ' :: v)
    (hwu : ∀ c ∈ u, isPyWS c = false) (hwv : ∀ c ∈ v, isPyWS c = false)
    (htotal : u.length + v.length + 1 > B)
    (hufit : u.length + 1 ≤ B)
    (hvne : ¬(v = [])) :
    split_text_into_chunks (u ++ ' ' :: v) B = [u, v] := by
  have htext : (u ++ ' ' :: v).length = u.length + v.length + 1 := by
    simp only [List.length_append, List.length_cons]
    omega
  have step1 : processParagraphs B [u ++ ' ' :: v] ⟨[], []⟩
      = processSentences B (splitSentences (u ++ ' ' :: v)) ⟨[], []⟩ := by
    simp only [processParagraphs]
    have g1 : (⟨[], []⟩ : SplitState).cur.length + (u ++ ' ' :: v).length + 2 > B := by
      show ([] : List Char).length + (u ++ ' ' :: v).length + 2 > B
      rw [List.length_nil, htext]
      omega
    have g2 : (u ++ ' ' :: v).length > B := by
      rw [htext]
      omega
    rw [if_pos g1, if_pos g2]
  have step2 : processSentences B (splitSentences (u ++ ' ' :: v)) ⟨[], []⟩
      = processWords B (splitSpaces (u ++ ' ' :: v)) ⟨[], []⟩ := by
    rw [splitSentences_no_dot _ hnd]
    simp only [processSentences]
    have g1 : (⟨[], []⟩ : SplitState).cur.length + (u ++ ' ' :: v).length + 1 > B := by
      show ([] : List Char).length + (u ++ ' ' :: v).length + 1 > B
      rw [List.length_nil, htext]
      omega
    have g2 : (u ++ ' ' :: v).length > B := by
      rw [htext]
      omega
    rw [if_pos g1, if_pos g2]
  have step3 : processWords B (splitSpaces (u ++ ' ' :: v)) ⟨[], []⟩
      = ⟨[pyStrip (([] : List Char) ++ u ++ [' '])], v ++ [' ']⟩ := by
    rw [splitSpaces_two_words u v hu hv]
    simp only [processWords]
    have g1 : ¬((⟨[], []⟩ : SplitState).cur.length + u.length + 1 > B) := by
      show ¬(([] : List Char).length + u.length + 1 > B)
      rw [List.length_nil]
      omega
    have g2 : (⟨[], ([] : List Char) ++ u ++ [' ']⟩ : SplitState).cur.length
        + v.length + 1 > B := by
      show (([] : List Char) ++ u ++ [' ']).length + v.length + 1 > B
      simp only [List.nil_append, List.length_append, List.length_cons, List.length_nil]
      omega
    rw [if_neg g1, if_pos g2]
    simp
  have hstripu : pyStrip (([] : List Char) ++ u ++ [' ']) = u := by
    rw [List.nil_append, pyStrip_append_space, pyStrip_no_ws u hwu]
  have hstripv : pyStrip (v ++ [' ']) = v := by
    rw [pyStrip_append_space, pyStrip_no_ws v hwv]
  unfold split_text_into_chunks
  rw [if_neg (by rw [htext]; omega)]
  rw [splitParas_no_newline _ hnl, step1, step2, step3]
  simp only [hstripv, hstripu]
  have hve : v.isEmpty = false := by
    cases v with
    | nil => exact absurd rfl hvne
    | cons c rest => rfl
  rw [hve]
  simp

theorem mem_bigText (c : Char) (h : c ∈ bigText) : c = 'a' ∨ c = ' ' ∨ c = 'b' := by
  simp only [bigText, List.mem_append] at h
  rcases h with (h | h) | h
  · exact Or.inl (List.eq_of_mem_replicate h)
  · exact Or.inr (Or.inl (List.mem_singleton.mp h))
  · exact Or.inr (Or.inr (List.eq_of_mem_replicate h))

theorem bigText_no_newline : '\n' ∉ bigText := by
  intro h
  rcases mem_bigText _ h with h | h | h <;> exact absurd h (by decide)

theorem bigText_no_dot : '.' ∉ bigText := by
  intro h
  rcases mem_bigText _ h with h | h | h <;> exact absurd h (by decide)

theorem bigText_split :
    split_text_into_chunks bigText MAX_TTS_LENGTH
      = [List.replicate 2000 'a', List.replicate 2000 'b'] := by
  have hBT : bigText = List.replicate 2000 'a' ++ ' ' :: List.replicate 2000 'b' := by
    unfold bigText
    rw [List.append_assoc, List.singleton_append]
  rw [hBT]
  apply split_two_words
  · intro h
    exact absurd (List.eq_of_mem_replicate h) (by decide)
  · intro h
    exact absurd (List.eq_of_mem_replicate h) (by decide)
  · rw [← hBT]
    exact bigText_no_newline
  · rw [← hBT]
    exact bigText_no_dot
  · intro c hc
    rw [List.eq_of_mem_replicate hc]
    decide
  · intro c hc
    rw [List.eq_of_mem_replicate hc]
    decide
  · simp only [List.length_replicate]
    decide
  · simp only [List.length_replicate]
    decide
  · intro h
    have h2 := congrArg List.length h
    rw [List.length_replicate, List.length_nil] at h2
    exact absurd h2 (by decide)

theorem head_replicate_a : (List.replicate 2000 'a').head? = some 'a' := by
  rw [show (2000 : Nat) = 1999 + 1 from rfl, List.replicate_succ]
  rfl

theorem head_replicate_b : (List.replicate 2000 'b').head? = some 'b' := by
  rw [show (2000 : Nat) = 1999 + 1 from rfl, List.replicate_succ]
  rfl

theorem synthBig_a : synthBig (List.replicate 2000 'a') = .ok [1] := by
  unfold synthBig
  rw [head_replicate_a]
  simp

theorem synthBig_b : synthBig (List.replicate 2000 'b') = .error ("boom".data) := by
  unfold synthBig
  rw [head_replicate_b]
  rw [if_neg (by decide)]

theorem runTasks_bigText :
    runTasks [List.replicate 2000 'a', List.replicate 2000 'b'] synthBig [0, 1]
        ⟨fun _ => none, List.replicate 2 none⟩
      = (⟨fun j => if j = 0 then some [1] else none,
          (List.replicate 2 none).set 0 (some 0)⟩, some ("boom".data)) := by
  simp only [runTasks,
    show ([List.replicate 2000 'a', List.replicate 2000 'b'] : List (List Char)).getD 0 []
        = List.replicate 2000 'a' from rfl,
    show ([List.replicate 2000 'a', List.replicate 2000 'b'] : List (List Char)).getD 1 []
        = List.replicate 2000 'b' from rfl,
    synthBig_a, synthBig_b]

theorem process_pdf_error_path (k t : List Char) (hk : ¬(k = []))
    (synth : List Char → Except (List Char) Bytes) (order : List Nat)
    (st : FState) (e : List Char)
    (hrun : runTasks (split_text_into_chunks (clean_text t) MAX_TTS_LENGTH) synth order
        ⟨fun _ => none,
          List.replicate (split_text_into_chunks (clean_text t) MAX_TTS_LENGTH).length none⟩
      = (st, some e)) :
    process_pdf k (.ok t) synth order
      = ⟨none, some ("An error occurred: ".data ++ e), none, st.files⟩ := by
  simp only [process_pdf, if_neg hk]
  split
  · rename_i st2 e2 heq
    rw [heq] at hrun
    injection hrun with h1 h2
    injection h2 with h2
    subst h1
    subst h2
    rfl
  · rename_i st2 heq
    rw [heq] at hrun
    injection hrun with h1 h2
    exact absurd h2 (by simp)

/-- C5 counterexample: a failing run that leaves a chunk file on disk.
Extraction yields the 4001-character `bigText`, which splits into two
chunks; the task for chunk 0 completes and writes `chunk_0000.mp3`, then
the task for chunk 1 fails, the exception skips the cleanup loop (lines
199-206 are only reached on success), and process_pdf returns an error
with the chunk-0 file still present. -/
theorem process_pdf_cleanup_cex :
    (process_pdf ("k".data) (.ok bigText) synthBig [0, 1]).files 0 = some [1] ∧
      (process_pdf ("k".data) (.ok bigText) synthBig [0, 1]).error ≠ none := by
  have hclean : clean_text bigText = bigText :=
    clean_text_id_no_newline bigText bigText_no_newline
  have hrun2 : runTasks (split_text_into_chunks (clean_text bigText) MAX_TTS_LENGTH)
      synthBig [0, 1]
      ⟨fun _ => none,
        List.replicate
          (split_text_into_chunks (clean_text bigText) MAX_TTS_LENGTH).length none⟩
      = (⟨fun j => if j = 0 then some [1] else none,
          (List.replicate 2 none).set 0 (some 0)⟩, some ("boom".data)) := by
    rw [hclean, bigText_split]
    exact runTasks_bigText
  rw [process_pdf_error_path ("k".data) bigText (by decide) synthBig [0, 1] _ _ hrun2]
  exact ⟨rfl, fun h => Option.noConfusion h⟩
